import Mathlib

/-!
# Verification of the draw.io incremental SVG export planner

This file embeds the change-detection planner of the repository's two
diagram-export scripts
(`software/drawio-svg-export/export-drawio-svg.py`, the "typer" variant, and
`software/drawio-svg-export-script/export-drawio-svg.py`, the "script" variant)
as executable Lean definitions, and proves or refutes the frozen claims about
them.

Modelling conventions:
* Python strings are Lean `String`s; `h.update(s.encode("utf-8"))` calls are
  modelled by appending `s` to the byte stream fed to SHA-1 (UTF-8 encoding is
  injective, so equality of the accumulated `String` is equality of the byte
  stream).  A hex digest is represented by the byte stream that is hashed:
  two digests are equal exactly when the streams are equal, under the
  injectivity-of-the-hash reading that the claims themselves adopt.
* A Python dict is modelled by an association list; `d[k] = v` prepends the
  pair, `d.get(k)` finds the most recent binding, `k in d` is key membership.
  The dicts in the planner are only observed through `get`/`in`, so this is
  observationally exact.
* The filesystem is a parameter `isfile : String → Bool`; `os.path.join` with
  the fixed output directory is `outdir ++ "/" ++ name`.
* The unbounded `while n in seen` loop of `plan_pages` is modelled with fuel
  `seen.length + 1`, which is proved sufficient below (pigeonhole over the
  finitely many keys of `seen`).
-/
/-! ## Injectivity of `Nat.repr` (decimal `str(count)` in Python) -/

namespace ReprInj

/-- Numeric value of a decimal digit character. -/
def chVal (c : Char) : Nat := c.toNat - 48

/-- Value of a big-endian list of decimal digit characters. -/
def lVal (l : List Char) : Nat := l.foldl (fun a c => 10 * a + chVal c) 0

end ReprInj

/-! ## Data model: XML elements (`xml.etree.ElementTree.Element`)

`text`/`tail` are `Option`-like in Python but `h.update` is only called when
they are truthy, and the empty string contributes nothing to the stream, so a
plain `String` (with `""` for `None`) yields the identical byte stream. -/

inductive Elem : Type where
  | mk (tag : String) (attrib : List (String × String)) (text : String)
       (children : List Elem) (tail : String)

def Elem.tag : Elem → String
  | .mk t _ _ _ _ => t

def Elem.attrib : Elem → List (String × String)
  | .mk _ a _ _ _ => a

def Elem.text : Elem → String
  | .mk _ _ x _ _ => x

def Elem.children : Elem → List Elem
  | .mk _ _ _ cs _ => cs

def Elem.tail : Elem → String
  | .mk _ _ _ _ y => y

/-- The attribute lists of an XML element are Python dicts: keys are distinct. -/
def keysNodup (attrib : List (String × String)) : Prop :=
  (attrib.map Prod.fst).Nodup

instance (attrib : List (String × String)) : Decidable (keysNodup attrib) := by
  unfold keysNodup; infer_instance

/-! ## `sanitize` -/

def forbiddenChar (c : Char) : Bool :=
  c == '\\' || c == '/' || c == ':' || c == '\"' || c == '*' || c == '?' ||
    c == '<' || c == '>' || c == '|'

def pySpace (c : Char) : Bool :=
  c == ' ' || c == '\t' || c == '\n' || c == '\r' || c == '\x0B' || c == '\x0C'

/-- Worker for `collapseRuns`; `inRun` records whether the previous character
belonged to a run being replaced. -/
def collapseAux (p : Char → Bool) (rep : Char) : Bool → List Char → List Char
  | _, [] => []
  | inRun, c :: cs =>
    if p c then
      if inRun then collapseAux p rep true cs
      else rep :: collapseAux p rep true cs
    else c :: collapseAux p rep false cs

/-- `re.sub(r'X+', rep, s)`: replace each maximal run of characters satisfying
`p` by the single character `rep`. -/
def collapseRuns (p : Char → Bool) (rep : Char) (l : List Char) : List Char :=
  collapseAux p rep false l

/-- Python `str.strip()`. -/
def stripPy (l : List Char) : List Char :=
  ((l.dropWhile pySpace).reverse.dropWhile pySpace).reverse

/-- `sanitize` from both scripts: forbidden-character runs become `_`,
whitespace runs become a single space, trim, and `"Untitled"` if empty. -/
def sanitize (name : String) : String :=
  let s1 := collapseRuns forbiddenChar '_' name.data
  let s2 := collapseRuns pySpace ' ' s1
  let s3 := stripPy s2
  if s3 = [] then "Untitled" else String.mk s3

/-! ## `page_hash`: the byte stream fed to SHA-1 -/

/-- Lexicographic code-point comparison on character lists: the order Python's
`sorted` uses on strings. -/
def charsLe : List Char → List Char → Bool
  | [], _ => true
  | _ :: _, [] => false
  | a :: as, b :: bs =>
    if a.toNat < b.toNat then true
    else if b.toNat < a.toNat then false
    else charsLe as bs

/-- `s <= t` on Python strings. -/
def strLe (s t : String) : Bool := charsLe s.data t.data

/-- `sorted(d)`: the keys of a dict, sorted lexicographically. -/
def sortKeys (l : List String) : List String :=
  List.insertionSort (fun a b => strLe a b = true) l

/-- `d.get(k)` on an attribute dict. -/
def lookupAttr (attrib : List (String × String)) (k : String) : Option String :=
  (attrib.find? (fun p => p.1 == k)).map Prod.snd

/-- Bytes contributed by `for k in sorted(node.attrib): update(k); update(d[k])`. -/
def attrStream (attrib : List (String × String)) : String :=
  (sortKeys (attrib.map Prod.fst)).foldl
    (fun s k => s ++ k ++ ((lookupAttr attrib k).getD "")) ""

mutual
/-- The byte stream `walk` feeds to the SHA-1 accumulator in `page_hash`
(identical inner loop in both scripts): tag, sorted attribute keys and values,
text, children in order, tail. -/
def streamNode : Elem → String
  | .mk tag attrib text children tail =>
    tag ++ attrStream attrib ++ text ++ streamChildren children ++ tail

def streamChildren : List Elem → String
  | [] => ""
  | c :: cs => streamNode c ++ streamChildren cs
end

/-- `"|".join(xs)`. -/
def joinBar : List String → String
  | [] => ""
  | [x] => x
  | x :: xs => x ++ "|" ++ joinBar xs

/-- The `attrs = "|".join(f"{k}={e.attrib.get(k,'')}" for k in sorted(e.attrib))`
string the typer variant hashes before calling `walk`. -/
def attrsJoin (attrib : List (String × String)) : String :=
  joinBar ((sortKeys (attrib.map Prod.fst)).map
    (fun k => k ++ "=" ++ ((lookupAttr attrib k).getD "")))

/-- Byte stream of `page_hash` in the typer variant
(`software/drawio-svg-export/export-drawio-svg.py`): root attribute join first,
then the common `walk`. -/
def streamTyper (e : Elem) : String :=
  attrsJoin e.attrib ++ streamNode e

/-- Byte stream of `page_hash` in the script variant
(`software/drawio-svg-export-script/export-drawio-svg.py`): just `walk`. -/
def streamScript (e : Elem) : String :=
  streamNode e

/-- `hashlib.sha1(b"single-page-fallback")`: the bytes hashed for the synthetic
single-page fallback. -/
def fallbackHashInput : String := "single-page-fallback"

/-! ## `plan_pages`: titles, filename de-duplication, hashes -/

/-- `f"{base} ({count})"`. -/
def mkName (base : String) (count : Nat) : String :=
  base ++ " (" ++ toString count ++ ")"

/-- `seen.get(k)` (most recent binding wins; see dict convention above). -/
def seenGet (seen : List (String × Nat)) (k : String) : Option Nat :=
  (seen.find? (fun p => p.1 == k)).map Prod.snd

/-- `k in seen`. -/
def seenHas (seen : List (String × Nat)) (k : String) : Bool :=
  seen.any (fun p => p.1 == k)

/-- `seen[k] = v`. -/
def seenSet (seen : List (String × Nat)) (k : String) (v : Nat) : List (String × Nat) :=
  (k, v) :: seen

/-- The `while n in seen: count += 1; n = f"{base} ({count})"` loop.  `seen` is
not modified inside the loop; fuel `seen.length + 1` is proved sufficient
below (`dedupLoop_free`). -/
def dedupLoop (seen : List (String × Nat)) (base : String) :
    Nat → String → Nat → String × Nat
  | 0, n, count => (n, count)
  | fuel + 1, n, count =>
    if seenHas seen n then dedupLoop seen base fuel (mkName base (count + 1)) (count + 1)
    else (n, count)

/-- The `for idx, t in enumerate(titles)` body of `plan_pages` (identical in
both scripts): sanitize, find an unused name, record `seen[base] = count;
seen[n] = 0`, emit `(idx, n + ".svg")`. -/
def planLoop : List (String × Nat) → Nat → List String → List (Nat × String)
  | _, _, [] => []
  | seen, idx, t :: ts =>
    let base := sanitize t
    let count0 := (seenGet seen base).getD 0
    let nc := dedupLoop seen base (seen.length + 1) base count0
    let seen1 := seenSet (seenSet seen base nc.2) nc.1 0
    (idx, nc.1 ++ ".svg") :: planLoop seen1 (idx + 1) ts

/-- `file_specs` as computed by `plan_pages` from the title list. -/
def plan_file_specs (titles : List String) : List (Nat × String) :=
  planLoop [] 0 titles

/-- The spec's `assignFilenames`: just the filename component of the specs. -/
def assignFilenames (titles : List String) : List String :=
  (plan_file_specs titles).map Prod.snd

/-- Python truthiness fallback `x or dflt` for an optional string. -/
def pyOrDefault (s : Option String) (dflt : String) : String :=
  match s with
  | none => dflt
  | some s => if s = "" then dflt else s

/-- `(d.attrib.get("name") or f"Page {i+1}")` over `enumerate(diagrams)`. -/
def pageTitles (diagrams : List Elem) : List String :=
  diagrams.enum.map
    (fun p => pyOrDefault (lookupAttr p.2.attrib "name") ("Page " ++ toString (p.1 + 1)))

/-- `titles = [...] or ["Page 1"]`. -/
def planTitles (diagrams : List Elem) : List String :=
  let ts := pageTitles diagrams
  if ts.isEmpty then ["Page 1"] else ts

/-- The `page_index -> digest` dict of `plan_pages`, parametrised by the
variant's `page_hash` byte-stream function `ph`. -/
def planHashes (ph : Elem → String) (diagrams : List Elem) : List (Nat × String) :=
  if diagrams.isEmpty then [(0, fallbackHashInput)]
  else diagrams.enum.map (fun p => (p.1, ph p.2))

/-- `plan_pages`: `(file_specs, page_hashes)`. -/
def plan_pages (ph : Elem → String) (diagrams : List Elem) :
    List (Nat × String) × List (Nat × String) :=
  (plan_file_specs (planTitles diagrams), planHashes ph diagrams)

/-! ## `incremental_selection` / `determine_exports` -/

/-- One recorded page of the previous manifest: `{"filename": ..., "hash": ...}`;
`Option` because `.get` on the JSON dict can miss. -/
structure PrevEntry : Type where
  filename : Option String
  hash : Option String
deriving DecidableEq, Repr

/-- The per-page export decision (loop body over `file_specs`): export when
`full`, no previous entry, hash changed, filename changed, or output file
missing. -/
def wantsExport (full : Bool) (isfile : String → Bool) (outdir : String)
    (hashes : Nat → String) (prev : Nat → Option PrevEntry)
    (idx : Nat) (fname : String) : Bool :=
  match prev idx with
  | none => true
  | some e =>
    full || decide (some (hashes idx) ≠ e.hash) || decide (some fname ≠ e.filename) ||
      !(isfile (outdir ++ "/" ++ fname))

/-- `to_export` as accumulated by `incremental_selection` / `determine_exports`. -/
def select_pages (full : Bool) (isfile : String → Bool) (outdir : String)
    (hashes : Nat → String) (prev : Nat → Option PrevEntry)
    (specs : List (Nat × String)) : List (Nat × String) :=
  specs.filter (fun p => wantsExport full isfile outdir hashes prev p.1 p.2)

/-- `prev_by_index.get(idx)`: the previous manifest's `pages` mapping (an
association list keyed by page index; dict comprehension keeps the last
binding on duplicate keys, hence the `reverse`). -/
def prevLookup (pages : List (Nat × PrevEntry)) (i : Nat) : Option PrevEntry :=
  (pages.reverse.find? (fun p => p.1 == i)).map Prod.snd

/-- `new_pages = { str(idx): {"filename": fname, "hash": hashes[idx]} ... }`. -/
def new_pages (hashes : Nat → String) (specs : List (Nat × String)) :
    List (Nat × PrevEntry) :=
  specs.map (fun p => (p.1, { filename := some p.2, hash := some (hashes p.1) }))

/-- The stale-file loop of `incremental_selection` (typer variant), as the list
of previous-manifest entries it reports: kept when `clean` is set, the previous
pages dict is nonempty, the index vanished or the joined old path is not among
the current joined paths, and the old file exists on disk. -/
def staleEntries (clean : Bool) (isfile : String → Bool) (outdir : String)
    (prevPages : List (Nat × PrevEntry)) (specs : List (Nat × String)) :
    List (Nat × PrevEntry) :=
  if clean && !prevPages.isEmpty then
    prevPages.filter (fun kv =>
      let oldPath := outdir ++ "/" ++ (kv.2.filename.getD "")
      (decide (kv.1 ∉ specs.map Prod.fst) ||
        decide (oldPath ∉ specs.map (fun q => outdir ++ "/" ++ q.2))) && isfile oldPath)
  else []

/-- `stale_files`: the old paths of the reported entries. -/
def stale_files (clean : Bool) (isfile : String → Bool) (outdir : String)
    (prevPages : List (Nat × PrevEntry)) (specs : List (Nat × String)) : List String :=
  (staleEntries clean isfile outdir prevPages specs).map
    (fun kv => outdir ++ "/" ++ (kv.2.filename.getD ""))

/-! ## `load_manifest` -/

/-- JSON values, the result type of `json.load`. -/
inductive Json : Type where
  | null
  | bool (b : Bool)
  | num (n : Int)
  | str (s : String)
  | arr (elts : List Json)
  | obj (fields : List (String × Json))

/-- Outcome of opening and JSON-parsing the manifest file: the file is missing,
or present with `json.load` either raising (`none`) or returning a value. -/
inductive FileRead : Type where
  | missing
  | present (parsed : Option Json)

def emptyManifest : Json := .obj []

/-- `load_manifest` (identical in both scripts): missing file or a raising
`json.load` gives `{}`; otherwise whatever value was parsed is returned. -/
def load_manifest : FileRead → Json
  | .missing => emptyManifest
  | .present none => emptyManifest
  | .present (some v) => v

/-- The shape the rest of the program expects from a manifest: a JSON object. -/
def isJsonObj : Json → Bool
  | .obj _ => true
  | _ => false

/-! ## The export loop and manifest persistence (`export_pages` / `do_export`) -/

/-- Outcome of one `drawio` CLI invocation. -/
inductive RenderOutcome : Type where
  | ok
  | cliMissing
  | exitNonzero
deriving DecidableEq

/-- The `for page_idx, filename in to_export` loop: `FileNotFoundError` exits
with code 2, `CalledProcessError` with code 3, both before `save_manifest`. -/
def render_loop (render : Nat → RenderOutcome) : List (Nat × String) → Except Nat Unit
  | [] => .ok ()
  | p :: rest =>
    match render p.1 with
    | .ok => render_loop render rest
    | .cliMissing => .error 2
    | .exitNonzero => .error 3

/-- The `pages` mapping of the manifest file on disk after `export_pages` runs
(typer variant; the script variant differs only by returning early when
`to_export` is empty): `save_manifest` runs only after the whole loop
succeeded, so any render failure leaves the disk manifest untouched. -/
def manifest_after_export (render : Nat → RenderOutcome) (to_export : List (Nat × String))
    (diskPages newPages : List (Nat × PrevEntry)) : List (Nat × PrevEntry) :=
  match render_loop render to_export with
  | .ok _ => newPages
  | .error _ => diskPages

/-! ## The attribute byte stream -/

/-- The fold underlying `attrStream`, with the value function abstracted. -/
def attrFold (f : String → String) (a : String) (ks : List String) : String :=
  ks.foldl (fun s k => s ++ k ++ f k) a

/-- Two pages identical except that, inside some nodes, the attributes appear
in a different order (same key-value sets, distinct keys as in any dict). -/
inductive AttrPerm : Elem → Elem → Prop where
  | mk (tag text tail : String) (a1 a2 : List (String × String))
      (cs1 cs2 : List Elem) :
      a1.Perm a2 → keysNodup a1 → cs1.length = cs2.length →
      (∀ (i : Nat) (h1 : i < cs1.length) (h2 : i < cs2.length),
        AttrPerm (cs1.get ⟨i, h1⟩) (cs2.get ⟨i, h2⟩)) →
      AttrPerm (.mk tag a1 text cs1 tail) (.mk tag a2 text cs2 tail)

/-! ## Exactly one serialized field differs -/

/-- `OneFieldDiff t1 t2`: the two pages are identical except for exactly one
serialized field at one node: either one node's text, or the value of one
attribute (same keys, distinct as in any dict). -/
inductive OneFieldDiff : Elem → Elem → Prop where
  | text (tag : String) (attrib : List (String × String)) (x1 x2 : String)
      (children : List Elem) (tail : String) : x1 ≠ x2 →
      OneFieldDiff (.mk tag attrib x1 children tail) (.mk tag attrib x2 children tail)
  | attr (tag text tail : String) (children : List Elem)
      (pre post : List (String × String)) (k v1 v2 : String) : v1 ≠ v2 →
      keysNodup (pre ++ (k, v1) :: post) →
      OneFieldDiff (.mk tag (pre ++ (k, v1) :: post) text children tail)
                   (.mk tag (pre ++ (k, v2) :: post) text children tail)
  | child (tag : String) (attrib : List (String × String)) (text tail : String)
      (l r : List Elem) (c1 c2 : Elem) : OneFieldDiff c1 c2 →
      OneFieldDiff (.mk tag attrib text (l ++ c1 :: r) tail)
                   (.mk tag attrib text (l ++ c2 :: r) tail)

/-! ## Zero-page fallback (C9) -/

/-- Outcome of `ET.parse(path)` + `root.findall(".//diagram")`: a `ParseError`
is caught and yields no pages; otherwise the document's diagram elements. -/
inductive Doc : Type where
  | unparseable
  | parsed (diagrams : List Elem)

/-- `get_page_elements` (identical in both scripts). -/
def get_page_elements : Doc → List Elem
  | .unparseable => []
  | .parsed ds => ds

/-! ## Injectivity of `Nat.repr`, continued: the proofs -/

namespace ReprInj

theorem foldl_lVal (l : List Char) (a : Nat) :
    l.foldl (fun a c => 10 * a + chVal c) a = a * 10 ^ l.length + lVal l := by
  induction l generalizing a with
  | nil =>
    simp only [List.foldl_nil, lVal, List.length_nil, pow_zero]
    omega
  | cons c cs ih =>
    simp only [List.foldl_cons, lVal, List.length_cons]
    rw [ih, ih]
    ring

theorem lVal_append (l m : List Char) :
    lVal (l ++ m) = lVal l * 10 ^ m.length + lVal m := by
  simp only [lVal, List.foldl_append]
  rw [foldl_lVal]
  simp [lVal]

theorem chVal_digitChar (d : Nat) (h : d < 10) : chVal (Nat.digitChar d) = d := by
  interval_cases d <;> decide

/-- `toDigitsCore` only ever appends in front of its accumulator. -/
theorem toDigitsCore_append (b : Nat) (fuel n : Nat) (l : List Char) :
    Nat.toDigitsCore b fuel n l = Nat.toDigitsCore b fuel n [] ++ l := by
  induction fuel generalizing n l with
  | zero => simp [Nat.toDigitsCore]
  | succ fuel ih =>
    simp only [Nat.toDigitsCore]
    by_cases h : n / b = 0
    · simp [h]
    · simp only [h, if_false]
      rw [ih (n / b) (Nat.digitChar (n % b) :: l), ih (n / b) [Nat.digitChar (n % b)]]
      simp

/-- With sufficient fuel, `toDigitsCore` base 10 computes a faithful decimal
representation: evaluating it back yields the input. -/
theorem lVal_toDigitsCore (fuel n : Nat) (h : n < fuel) :
    lVal (Nat.toDigitsCore 10 fuel n []) = n := by
  induction fuel generalizing n with
  | zero => omega
  | succ fuel ih =>
    simp only [Nat.toDigitsCore]
    by_cases hdiv : n / 10 = 0
    · have hn : n < 10 := by omega
      simp [hdiv, lVal, chVal_digitChar (n % 10) (Nat.mod_lt _ (by omega))]
      omega
    · have hpos : 0 < n := by
        rcases Nat.eq_zero_or_pos n with h0 | h1
        · subst h0; simp at hdiv
        · exact h1
      have hlt : n / 10 < fuel := by
        have : n / 10 < n := Nat.div_lt_self hpos (by omega)
        omega
      simp only [hdiv, if_false]
      rw [toDigitsCore_append]
      rw [lVal_append, ih (n / 10) hlt]
      simp [lVal, chVal_digitChar (n % 10) (Nat.mod_lt _ (by omega))]
      omega

theorem repr_injective : Function.Injective Nat.repr := by
  intro m n h
  have hm : lVal (Nat.toDigits 10 m) = m :=
    lVal_toDigitsCore (m + 1) m (Nat.lt_succ_self m)
  have hn : lVal (Nat.toDigits 10 n) = n :=
    lVal_toDigitsCore (n + 1) n (Nat.lt_succ_self n)
  have hdata : (Nat.toDigits 10 m) = (Nat.toDigits 10 n) := by
    have : (Nat.repr m).data = (Nat.repr n).data := by rw [h]
    simpa [Nat.repr, List.asString] using this
  rw [← hm, ← hn, hdata]

theorem toString_nat_injective {m n : Nat} (h : toString m = toString n) : m = n :=
  repr_injective h

end ReprInj

/-! ## String append cancellation -/

theorem str_ext {s t : String} (h : s.data = t.data) : s = t := by
  cases s; cases t; exact congrArg String.mk h

theorem str_append_left_cancel {a b c : String} (h : a ++ b = a ++ c) : b = c := by
  apply str_ext
  have : (a ++ b).data = (a ++ c).data := by rw [h]
  simp only [String.data_append] at this
  exact List.append_cancel_left this

theorem str_append_right_cancel {a b c : String} (h : a ++ c = b ++ c) : a = b := by
  apply str_ext
  have : (a ++ c).data = (b ++ c).data := by rw [h]
  simp only [String.data_append] at this
  exact List.append_cancel_right this

theorem str_middle_cancel {A B x y : String} (h : A ++ x ++ B = A ++ y ++ B) : x = y :=
  str_append_left_cancel (str_append_right_cancel (by simpa [String.append_assoc] using h) :
    A ++ x = A ++ y)

theorem str_length_append (a b : String) : (a ++ b).length = a.length + b.length := by
  show (a ++ b).data.length = a.data.length + b.data.length
  rw [String.data_append, List.length_append]

/-! ## Lemmas: the filename de-duplication loop -/

theorem seenHas_iff (seen : List (String × Nat)) (k : String) :
    seenHas seen k = true ↔ k ∈ seen.map Prod.fst := by
  simp only [seenHas, List.any_eq_true, beq_iff_eq, List.mem_map]

theorem mkName_ne_base (base : String) (c : Nat) : mkName base c ≠ base := by
  intro h
  have hlen := congrArg String.length h
  simp only [mkName, str_length_append] at hlen
  have h2 : (" (" : String).length = 2 := rfl
  have h3 : (")" : String).length = 1 := rfl
  omega

theorem mkName_inj {base : String} {c1 c2 : Nat} (h : mkName base c1 = mkName base c2) :
    c1 = c2 := by
  unfold mkName at h
  have h1 : base ++ " (" ++ toString c1 = base ++ " (" ++ toString c2 :=
    str_append_right_cancel h
  exact ReprInj.toString_nat_injective (str_append_left_cancel h1)

/-- If the dedup loop ran out of fuel still blocked, every candidate it tried
was a key of `seen`. -/
theorem dedupLoop_all_in (seen : List (String × Nat)) (base : String) :
    ∀ (fuel : Nat) (n : String) (count : Nat),
      seenHas seen (dedupLoop seen base fuel n count).1 = true →
      ∀ x ∈ n :: (List.range' (count + 1) fuel).map (mkName base),
        seenHas seen x = true := by
  intro fuel
  induction fuel with
  | zero =>
    intro n count h x hx
    simp only [List.range', List.map_nil, List.mem_singleton] at hx
    subst hx
    simpa [dedupLoop] using h
  | succ fuel ih =>
    intro n count h x hx
    by_cases hn : seenHas seen n = true
    · have hres : dedupLoop seen base (fuel + 1) n count =
          dedupLoop seen base fuel (mkName base (count + 1)) (count + 1) := by
        simp [dedupLoop, hn]
      rw [hres] at h
      simp only [List.range', List.map_cons, List.mem_cons] at hx
      rcases hx with rfl | hx'
      · exact hn
      · exact ih (mkName base (count + 1)) (count + 1) h x (by
          simpa [List.mem_cons] using hx')
    · exfalso
      have : dedupLoop seen base (fuel + 1) n count = (n, count) := by
        simp [dedupLoop, hn]
      rw [this] at h
      exact hn h

theorem cand_nodup (base : String) (count fuel : Nat) :
    (base :: (List.range' (count + 1) fuel).map (mkName base)).Nodup := by
  refine List.nodup_cons.mpr ⟨?_, ?_⟩
  · intro hmem
    rcases List.mem_map.mp hmem with ⟨c, _, hc⟩
    exact mkName_ne_base base c hc
  · exact (List.nodup_range' _ _).map (by intro a b h; exact mkName_inj h)

theorem nodup_subset_length {l keys : List String} (hnd : l.Nodup)
    (hsub : ∀ x ∈ l, x ∈ keys) : l.length ≤ keys.length := by
  classical
  have h1 : l.toFinset.card = l.length := List.toFinset_card_of_nodup hnd
  have h2 : l.toFinset ⊆ keys.toFinset := by
    intro x hx
    exact List.mem_toFinset.mpr (hsub x (List.mem_toFinset.mp hx))
  have h3 : keys.toFinset.card ≤ keys.length := keys.toFinset_card_le
  have h4 := Finset.card_le_card h2
  omega

/-- Fuel `seen.length + 1` always suffices: the loop's result is a fresh name. -/
theorem dedupLoop_free (seen : List (String × Nat)) (base : String) (count : Nat) :
    seenHas seen (dedupLoop seen base (seen.length + 1) base count).1 = false := by
  cases hb : seenHas seen (dedupLoop seen base (seen.length + 1) base count).1 with
  | false => rfl
  | true =>
    exfalso
    have hall := dedupLoop_all_in seen base (seen.length + 1) base count hb
    have hnd := cand_nodup base count (seen.length + 1)
    have hsub : ∀ x ∈ base :: (List.range' (count + 1) (seen.length + 1)).map (mkName base),
        x ∈ seen.map Prod.fst := fun x hx => (seenHas_iff seen x).mp (hall x hx)
    have hlen := nodup_subset_length hnd hsub
    simp only [List.length_cons, List.length_map, List.length_range',
      List.length_map] at hlen
    omega

theorem seenHas_cons_of {seen : List (String × Nat)} (kv : String × Nat) {k : String}
    (h : seenHas seen k = true) : seenHas (kv :: seen) k = true := by
  rw [seenHas_iff] at h ⊢
  simp only [List.map_cons, List.mem_cons]
  exact Or.inr h

/-- Unfolding equation for the `plan_pages` loop body. -/
theorem planLoop_cons (seen : List (String × Nat)) (idx : Nat) (t : String) (ts : List String) :
    planLoop seen idx (t :: ts) =
      (idx, (dedupLoop seen (sanitize t) (seen.length + 1) (sanitize t)
          ((seenGet seen (sanitize t)).getD 0)).1 ++ ".svg") ::
        planLoop (seenSet (seenSet seen (sanitize t)
            (dedupLoop seen (sanitize t) (seen.length + 1) (sanitize t)
              ((seenGet seen (sanitize t)).getD 0)).2)
          (dedupLoop seen (sanitize t) (seen.length + 1) (sanitize t)
            ((seenGet seen (sanitize t)).getD 0)).1 0)
          (idx + 1) ts := rfl

/-- Every filename the loop emits is `stem ++ ".svg"` for a stem that was not
yet a key of `seen` when its title was processed. -/
theorem planLoop_stems : ∀ (ts : List String) (seen : List (String × Nat)) (idx : Nat),
    ∀ q ∈ planLoop seen idx ts, ∃ stem, q.2 = stem ++ ".svg" ∧ seenHas seen stem = false := by
  intro ts
  induction ts with
  | nil =>
    intro seen idx q hq
    simp [planLoop] at hq
  | cons t ts ih =>
    intro seen idx q hq
    rw [planLoop_cons] at hq
    rcases List.mem_cons.mp hq with rfl | hq'
    · exact ⟨_, rfl, dedupLoop_free seen (sanitize t) _⟩
    · obtain ⟨stem, hstem, hfree⟩ := ih _ _ q hq'
      refine ⟨stem, hstem, ?_⟩
      simp only [seenSet] at hfree
      cases hs : seenHas seen stem with
      | false => rfl
      | true =>
        exfalso
        have h1 := seenHas_cons_of
          ((sanitize t), (dedupLoop seen (sanitize t) (seen.length + 1) (sanitize t)
            ((seenGet seen (sanitize t)).getD 0)).2) hs
        have h2 := seenHas_cons_of
          ((dedupLoop seen (sanitize t) (seen.length + 1) (sanitize t)
            ((seenGet seen (sanitize t)).getD 0)).1, 0) h1
        rw [hfree] at h2
        exact Bool.false_ne_true h2

/-- The filenames emitted by the loop are pairwise distinct. -/
theorem planLoop_snd_nodup : ∀ (ts : List String) (seen : List (String × Nat)) (idx : Nat),
    ((planLoop seen idx ts).map Prod.snd).Nodup := by
  intro ts
  induction ts with
  | nil => intro seen idx; simp [planLoop]
  | cons t ts ih =>
    intro seen idx
    rw [planLoop_cons]
    simp only [List.map_cons]
    refine List.nodup_cons.mpr ⟨?_, ih _ _⟩
    intro hmem
    rcases List.mem_map.mp hmem with ⟨q, hq, hsnd⟩
    obtain ⟨stem, hstem, hfree⟩ := planLoop_stems ts _ _ q hq
    have hstem2 : stem = (dedupLoop seen (sanitize t) (seen.length + 1) (sanitize t)
        ((seenGet seen (sanitize t)).getD 0)).1 :=
      str_append_right_cancel (hstem ▸ hsnd)
    rw [hstem2] at hfree
    have : seenHas (seenSet (seenSet seen (sanitize t)
        (dedupLoop seen (sanitize t) (seen.length + 1) (sanitize t)
          ((seenGet seen (sanitize t)).getD 0)).2)
        (dedupLoop seen (sanitize t) (seen.length + 1) (sanitize t)
          ((seenGet seen (sanitize t)).getD 0)).1 0)
        (dedupLoop seen (sanitize t) (seen.length + 1) (sanitize t)
          ((seenGet seen (sanitize t)).getD 0)).1 = true := by
      simp [seenSet, seenHas]
    rw [hfree] at this
    exact Bool.false_ne_true this

theorem planLoop_length : ∀ (ts : List String) (seen : List (String × Nat)) (idx : Nat),
    (planLoop seen idx ts).length = ts.length := by
  intro ts
  induction ts with
  | nil => intro seen idx; rfl
  | cons t ts ih =>
    intro seen idx
    rw [planLoop_cons]
    simp [ih]

theorem planLoop_fst : ∀ (ts : List String) (seen : List (String × Nat)) (idx : Nat),
    (planLoop seen idx ts).map Prod.fst = List.range' idx ts.length := by
  intro ts
  induction ts with
  | nil => intro seen idx; rfl
  | cons t ts ih =>
    intro seen idx
    rw [planLoop_cons]
    simp only [List.map_cons, List.length_cons, List.range']
    rw [ih]

/-- C2: `assignFilenames` returns one filename per title, in order; the
results are pairwise distinct (case-sensitively) and each is `stem ++ ".svg"`.
Equivalently, the `filename` components of one run's `file_specs` (the
`ExportEntry` records) are pairwise distinct. -/
theorem claim_C2_filename_uniqueness (titles : List String) :
    (assignFilenames titles).length = titles.length ∧
    (assignFilenames titles).Nodup ∧
    ∀ f ∈ assignFilenames titles, ∃ stem, f = stem ++ ".svg" := by
  refine ⟨?_, planLoop_snd_nodup titles [] 0, ?_⟩
  · simp [assignFilenames, plan_file_specs, planLoop_length]
  · intro f hf
    rcases List.mem_map.mp hf with ⟨q, hq, rfl⟩
    obtain ⟨stem, hstem, _⟩ := planLoop_stems titles [] 0 q hq
    exact ⟨stem, hstem⟩

/-- C1: a page `(idx, fname)` of the current `file_specs` is selected for
export iff `full` is set, or no previous entry exists for `idx`, or the
fingerprint differs from the recorded one, or the assigned filename differs
from the recorded one, or no file exists at `outdir/fname`. -/
theorem claim_C1_selection (full : Bool) (isfile : String → Bool) (outdir : String)
    (hashes : Nat → String) (prev : Nat → Option PrevEntry)
    (specs : List (Nat × String)) (idx : Nat) (fname : String)
    (hmem : (idx, fname) ∈ specs) :
    ((idx, fname) ∈ select_pages full isfile outdir hashes prev specs ↔
      (full = true ∨ prev idx = none ∨
        (∃ e, prev idx = some e ∧ some (hashes idx) ≠ e.hash) ∨
        (∃ e, prev idx = some e ∧ some fname ≠ e.filename) ∨
        isfile (outdir ++ "/" ++ fname) = false)) := by
  rw [select_pages, List.mem_filter]
  cases hp : prev idx with
  | none => simp [wantsExport, hp, hmem]
  | some e =>
    simp only [wantsExport, hp, hmem, true_and, Bool.or_eq_true, decide_eq_true_eq,
      Bool.not_eq_true', Option.some.injEq]
    constructor
    · rintro (((hf | hh) | hn) | hfile)
      · exact Or.inl hf
      · exact Or.inr (Or.inr (Or.inl ⟨e, rfl, hh⟩))
      · exact Or.inr (Or.inr (Or.inr (Or.inl ⟨e, rfl, hn⟩)))
      · exact Or.inr (Or.inr (Or.inr (Or.inr hfile)))
    · rintro (hf | hnone | ⟨e2, he2, hh⟩ | ⟨e2, he2, hn⟩ | hfile)
      · exact Or.inl (Or.inl (Or.inl hf))
      · exact absurd hnone (by simp)
      · cases he2
        exact Or.inl (Or.inl (Or.inr hh))
      · cases he2
        exact Or.inl (Or.inr hn)
      · exact Or.inr hfile

/-- Witness for C1 at a concrete input: a page with no previous entry. -/
theorem claim_C1_selection_witness :
    ((0, "A.svg") ∈ select_pages false (fun _ => false) "out" (fun _ => "h")
        (fun _ => none) [(0, "A.svg")] ↔
      (false = true ∨ (none : Option PrevEntry) = none ∨
        (∃ e : PrevEntry, (none : Option PrevEntry) = some e ∧ some "h" ≠ e.hash) ∨
        (∃ e : PrevEntry, (none : Option PrevEntry) = some e ∧ some "A.svg" ≠ e.filename) ∨
        false = false)) :=
  claim_C1_selection false (fun _ => false) "out" (fun _ => "h") (fun _ => none)
    [(0, "A.svg")] 0 "A.svg" (List.mem_singleton.mpr rfl)

/-! ## Lemmas: manifest lookup of the previous run's pages -/

theorem find?_key_unique {α β : Type} [BEq α] [LawfulBEq α] {l : List (α × β)}
    (hnd : (l.map Prod.fst).Nodup) {k : α} {v : β} (hm : (k, v) ∈ l) :
    l.find? (fun p => p.1 == k) = some (k, v) := by
  induction l with
  | nil => simp at hm
  | cons a l ih =>
    simp only [List.map_cons, List.nodup_cons] at hnd
    rcases List.mem_cons.mp hm with heq | hm'
    · subst heq
      exact List.find?_cons_of_pos _ (by simp)
    · have hne : (a.1 == k) = false := by
        simp only [beq_eq_false_iff_ne, ne_eq]
        intro h
        exact hnd.1 (h ▸ List.mem_map.mpr ⟨(k, v), hm', rfl⟩)
      rw [List.find?_cons_of_neg _ (by simp [hne])]
      exact ih hnd.2 hm'

theorem prevLookup_new_pages (hashes : Nat → String) {specs : List (Nat × String)}
    (hnd : (specs.map Prod.fst).Nodup) {idx : Nat} {fname : String}
    (hm : (idx, fname) ∈ specs) :
    prevLookup (new_pages hashes specs) idx =
      some ⟨some fname, some (hashes idx)⟩ := by
  unfold prevLookup new_pages
  have hfst : (((specs.map (fun p => (p.1,
      PrevEntry.mk (some p.2) (some (hashes p.1))))).reverse).map Prod.fst).Nodup := by
    rw [List.map_reverse, List.nodup_reverse, List.map_map]
    exact hnd
  have hmem2 : (idx, PrevEntry.mk (some fname) (some (hashes idx))) ∈
      (specs.map (fun p => (p.1, PrevEntry.mk (some p.2) (some (hashes p.1))))).reverse := by
    rw [List.mem_reverse]
    exact List.mem_map.mpr ⟨(idx, fname), hm, rfl⟩
  rw [find?_key_unique hfst hmem2]
  rfl

/-- C4: running the planner against the manifest its own previous run produced
(same document, hence same titles and hashes), with every planned output file
present on disk and `full` off, selects nothing. -/
theorem claim_C4_idempotent (titles : List String) (hashes : Nat → String)
    (outdir : String) (isfile : String → Bool)
    (hfiles : ∀ p ∈ plan_file_specs titles, isfile (outdir ++ "/" ++ p.2) = true) :
    select_pages false isfile outdir hashes
      (prevLookup (new_pages hashes (plan_file_specs titles)))
      (plan_file_specs titles) = [] := by
  rw [select_pages, List.filter_eq_nil_iff]
  rintro ⟨idx, fname⟩ hmem
  have hnd : ((plan_file_specs titles).map Prod.fst).Nodup := by
    rw [plan_file_specs, planLoop_fst]
    exact List.nodup_range' _ _
  have hlook := prevLookup_new_pages hashes hnd hmem
  simp [wantsExport, hlook, hfiles _ hmem]

/-- Witness for C4: second run on the spec's three-page scenario is a no-op. -/
theorem claim_C4_idempotent_witness :
    select_pages false (fun _ => true) "figs" (fun _ => "h")
      (prevLookup (new_pages (fun _ => "h") (plan_file_specs ["Intro", "Intro", "Results"])))
      (plan_file_specs ["Intro", "Intro", "Results"]) = [] :=
  claim_C4_idempotent ["Intro", "Intro", "Results"] (fun _ => "h") "figs" (fun _ => true)
    (fun _ _ => rfl)

/-! ## Order lemmas for the key sort -/

theorem char_toNat_inj {a b : Char} (h : a.toNat = b.toNat) : a = b :=
  Char.eq_of_val_eq (UInt32.toNat.inj h)

theorem charsLe_total (as bs : List Char) : charsLe as bs = true ∨ charsLe bs as = true := by
  induction as generalizing bs with
  | nil => exact Or.inl rfl
  | cons a as ih =>
    cases bs with
    | nil => exact Or.inr rfl
    | cons b bs =>
      by_cases h1 : a.toNat < b.toNat
      · exact Or.inl (by simp [charsLe, h1])
      · by_cases h2 : b.toNat < a.toNat
        · exact Or.inr (by simp [charsLe, h2])
        · rcases ih bs with h | h
          · exact Or.inl (by simp [charsLe, h1, h2, h])
          · exact Or.inr (by simp [charsLe, h1, h2, h])

theorem charsLe_trans {as bs cs : List Char} (h1 : charsLe as bs = true)
    (h2 : charsLe bs cs = true) : charsLe as cs = true := by
  induction as generalizing bs cs with
  | nil => rfl
  | cons a as ih =>
    cases bs with
    | nil => simp [charsLe] at h1
    | cons b bs =>
      cases cs with
      | nil => simp [charsLe] at h2
      | cons c cs =>
        simp only [charsLe] at h1 h2 ⊢
        by_cases hab : a.toNat < b.toNat
        · by_cases hbc : b.toNat < c.toNat
          · simp [show a.toNat < c.toNat by omega]
          · by_cases hcb : c.toNat < b.toNat
            · simp [hbc, hcb] at h2
            · simp [show a.toNat < c.toNat by omega]
        · by_cases hba : b.toNat < a.toNat
          · simp [hab, hba] at h1
          · by_cases hbc : b.toNat < c.toNat
            · simp [show a.toNat < c.toNat by omega]
            · by_cases hcb : c.toNat < b.toNat
              · simp [hbc, hcb] at h2
              · simp only [hab, hba, if_false] at h1
                simp only [hbc, hcb, if_false] at h2
                simp only [show ¬a.toNat < c.toNat by omega,
                  show ¬c.toNat < a.toNat by omega, if_false]
                exact ih h1 h2

theorem charsLe_antisymm {as bs : List Char} (h1 : charsLe as bs = true)
    (h2 : charsLe bs as = true) : as = bs := by
  induction as generalizing bs with
  | nil =>
    cases bs with
    | nil => rfl
    | cons b bs => simp [charsLe] at h2
  | cons a as ih =>
    cases bs with
    | nil => simp [charsLe] at h1
    | cons b bs =>
      simp only [charsLe] at h1 h2
      by_cases hab : a.toNat < b.toNat
      · simp [show ¬b.toNat < a.toNat by omega, hab] at h2
      · by_cases hba : b.toNat < a.toNat
        · simp [hab, hba] at h1
        · have hcheq : a = b := char_toNat_inj (by omega)
          simp only [hab, hba, if_false] at h1 h2
          rw [hcheq, ih h1 h2]

instance : IsTotal String (fun a b => strLe a b = true) :=
  ⟨fun a b => charsLe_total a.data b.data⟩

instance : IsTrans String (fun a b => strLe a b = true) :=
  ⟨fun _ _ _ h1 h2 => charsLe_trans h1 h2⟩

instance : IsAntisymm String (fun a b => strLe a b = true) :=
  ⟨fun _ _ h1 h2 => str_ext (charsLe_antisymm h1 h2)⟩

theorem sortKeys_perm (l : List String) : (sortKeys l).Perm l :=
  List.perm_insertionSort _ l

theorem sortKeys_sorted (l : List String) :
    List.Sorted (fun a b => strLe a b = true) (sortKeys l) :=
  List.sorted_insertionSort _ l

theorem sortKeys_eq_of_perm {l1 l2 : List String} (h : l1.Perm l2) :
    sortKeys l1 = sortKeys l2 :=
  List.eq_of_perm_of_sorted ((sortKeys_perm l1).trans (h.trans (sortKeys_perm l2).symm))
    (sortKeys_sorted l1) (sortKeys_sorted l2)

/-! ## Lookup lemmas for attribute dicts -/

theorem lookupAttr_eq_some_iff {l : List (String × String)} (h : keysNodup l)
    (k v : String) : lookupAttr l k = some v ↔ (k, v) ∈ l := by
  constructor
  · intro hl
    unfold lookupAttr at hl
    cases hf : l.find? (fun p => p.1 == k) with
    | none => rw [hf] at hl; simp at hl
    | some p =>
      rw [hf] at hl
      simp only [Option.map_some', Option.some.injEq] at hl
      have hp := List.find?_some hf
      have hpm : p ∈ l := List.mem_of_find?_eq_some hf
      simp only [beq_iff_eq] at hp
      have hpe : p = (k, v) := by
        cases p
        simp only at hp hl
        rw [hp, hl]
      exact hpe ▸ hpm
  · intro hm
    unfold lookupAttr
    rw [find?_key_unique h hm]
    rfl

theorem lookupAttr_eq_none_iff (l : List (String × String)) (k : String) :
    lookupAttr l k = none ↔ k ∉ l.map Prod.fst := by
  unfold lookupAttr
  simp only [Option.map_eq_none', List.find?_eq_none, beq_iff_eq, List.mem_map]
  constructor
  · rintro h ⟨p, hp, he⟩
    exact h p hp he
  · intro h p hp he
    exact h ⟨p, hp, he⟩

theorem keysNodup_of_perm {l1 l2 : List (String × String)} (hp : l1.Perm l2)
    (h : keysNodup l1) : keysNodup l2 :=
  ((hp.map Prod.fst).nodup_iff).mp h

theorem lookupAttr_perm {l1 l2 : List (String × String)} (hp : l1.Perm l2)
    (hnd : keysNodup l1) (k : String) : lookupAttr l1 k = lookupAttr l2 k := by
  have hnd2 : keysNodup l2 := keysNodup_of_perm hp hnd
  cases hl : lookupAttr l1 k with
  | some v =>
    have hm : (k, v) ∈ l1 := (lookupAttr_eq_some_iff hnd k v).mp hl
    exact ((lookupAttr_eq_some_iff hnd2 k v).mpr (hp.mem_iff.mp hm)).symm
  | none =>
    have hk : k ∉ l1.map Prod.fst := (lookupAttr_eq_none_iff l1 k).mp hl
    have hk2 : k ∉ l2.map Prod.fst := fun h => hk ((hp.map Prod.fst).mem_iff.mpr h)
    exact ((lookupAttr_eq_none_iff l2 k).mpr hk2).symm

/-! ## Lemmas: the attribute byte stream -/

theorem attrStream_eq_attrFold (attrib : List (String × String)) :
    attrStream attrib =
      attrFold (fun k => (lookupAttr attrib k).getD "") "" (sortKeys (attrib.map Prod.fst)) :=
  rfl

theorem attrFold_shift (f : String → String) (a : String) (ks : List String) :
    attrFold f a ks = a ++ attrFold f "" ks := by
  induction ks generalizing a with
  | nil => simp [attrFold]
  | cons k ks ih =>
    show attrFold f (a ++ k ++ f k) ks = a ++ attrFold f ("" ++ k ++ f k) ks
    rw [ih (a ++ k ++ f k), ih ("" ++ k ++ f k)]
    simp [String.append_assoc]

theorem attrFold_congr {f1 f2 : String → String} (ks : List String)
    (h : ∀ k ∈ ks, f1 k = f2 k) (a : String) : attrFold f1 a ks = attrFold f2 a ks := by
  induction ks generalizing a with
  | nil => rfl
  | cons k ks ih =>
    simp only [attrFold, List.foldl_cons]
    rw [h k (by simp)]
    exact ih (fun k2 hk2 => h k2 (by simp [hk2])) _

theorem attrFold_append (f : String → String) (a : String) (K1 K2 : List String) :
    attrFold f a (K1 ++ K2) = attrFold f (attrFold f a K1) K2 := by
  simp [attrFold, List.foldl_append]

/-- `attrStream` is invariant under permuting the attribute list (keys
distinct, as in any dict). -/
theorem attrStream_perm {a1 a2 : List (String × String)} (hp : a1.Perm a2)
    (hnd : keysNodup a1) : attrStream a1 = attrStream a2 := by
  rw [attrStream_eq_attrFold, attrStream_eq_attrFold,
    sortKeys_eq_of_perm (hp.map Prod.fst)]
  exact attrFold_congr _ (fun k _ => by rw [lookupAttr_perm hp hnd k]) ""

/-- The typer variant's root attribute join is likewise permutation invariant. -/
theorem attrsJoin_perm {a1 a2 : List (String × String)} (hp : a1.Perm a2)
    (hnd : keysNodup a1) : attrsJoin a1 = attrsJoin a2 := by
  unfold attrsJoin
  rw [sortKeys_eq_of_perm (hp.map Prod.fst)]
  congr 1
  exact List.map_congr_left (fun k _ => by rw [lookupAttr_perm hp hnd k])

/-! ## The node byte stream -/

theorem streamChildren_append (l m : List Elem) :
    streamChildren (l ++ m) = streamChildren l ++ streamChildren m := by
  induction l with
  | nil => simp [streamChildren]
  | cons c l ih =>
    show streamNode c ++ streamChildren (l ++ m) =
      (streamNode c ++ streamChildren l) ++ streamChildren m
    rw [ih, String.append_assoc]

theorem streamChildren_congr : ∀ (cs1 cs2 : List Elem), cs1.length = cs2.length →
    (∀ (i : Nat) (h1 : i < cs1.length) (h2 : i < cs2.length),
      streamNode (cs1.get ⟨i, h1⟩) = streamNode (cs2.get ⟨i, h2⟩)) →
    streamChildren cs1 = streamChildren cs2 := by
  intro cs1
  induction cs1 with
  | nil =>
    intro cs2 hlen _
    cases cs2 with
    | nil => rfl
    | cons d ds => simp at hlen
  | cons c cs ih =>
    intro cs2 hlen hpt
    cases cs2 with
    | nil => simp at hlen
    | cons d ds =>
      simp only [streamChildren]
      have h0 : streamNode c = streamNode d := hpt 0 (by simp) (by simp)
      rw [h0, ih ds (by simpa using hlen)
        (fun i hi1 hi2 => hpt (i + 1) (by simpa using hi1) (by simpa using hi2))]

theorem attrPerm_streamNode {t1 t2 : Elem} (h : AttrPerm t1 t2) :
    streamNode t1 = streamNode t2 := by
  induction h with
  | mk tag text tail a1 a2 cs1 cs2 hperm hnd hlen hpt ih =>
    simp only [streamNode]
    rw [attrStream_perm hperm hnd, streamChildren_congr cs1 cs2 hlen ih]

/-- C6: reordering the attribute serialization inside nodes (same per-node
key-value sets, same tags, text, tails and child order) leaves the hashed byte
stream — hence the hex digest — unchanged, in both script variants: attributes
are processed sorted lexicographically by key. -/
theorem claim_C6_attr_order_invariance (t1 t2 : Elem) (h : AttrPerm t1 t2) :
    streamScript t1 = streamScript t2 ∧ streamTyper t1 = streamTyper t2 := by
  have hnode := attrPerm_streamNode h
  refine ⟨hnode, ?_⟩
  cases h with
  | mk tag text tail a1 a2 cs1 cs2 hperm hnd hlen hpt =>
    unfold streamTyper
    simp only [Elem.attrib]
    rw [attrsJoin_perm hperm hnd, hnode]

/-- Witness for C6: swapping two root attributes leaves both digests unchanged. -/
theorem claim_C6_attr_order_invariance_witness :
    streamScript (.mk "t" [("a", "1"), ("b", "2")] "x" [] "y") =
      streamScript (.mk "t" [("b", "2"), ("a", "1")] "x" [] "y") ∧
    streamTyper (.mk "t" [("a", "1"), ("b", "2")] "x" [] "y") =
      streamTyper (.mk "t" [("b", "2"), ("a", "1")] "x" [] "y") :=
  claim_C6_attr_order_invariance _ _
    (AttrPerm.mk "t" "x" "y" _ _ [] [] (List.Perm.swap ("b", "2") ("a", "1") [])
      (by decide) rfl (fun i h1 _ => absurd h1 (by simp)))

/-! ## Sensitivity of the attribute stream to a single value change -/

theorem lookupAttr_middle_ne : ∀ (pre : List (String × String))
    (post : List (String × String)) (k v1 v2 k2 : String), (k == k2) = false →
    lookupAttr (pre ++ (k, v1) :: post) k2 = lookupAttr (pre ++ (k, v2) :: post) k2 := by
  intro pre
  induction pre with
  | nil =>
    intro post k v1 v2 k2 hne
    unfold lookupAttr
    rw [List.nil_append, List.nil_append, List.find?_cons_of_neg _ (by simp [hne]),
      List.find?_cons_of_neg _ (by simp [hne])]
  | cons p pre ih =>
    intro post k v1 v2 k2 hne
    unfold lookupAttr
    rw [List.cons_append, List.cons_append]
    cases hp : (p.1 == k2) with
    | true =>
      rw [List.find?_cons_of_pos _ (by simp [hp]), List.find?_cons_of_pos _ (by simp [hp])]
    | false =>
      rw [List.find?_cons_of_neg _ (by simp [hp]), List.find?_cons_of_neg _ (by simp [hp])]
      exact ih post k v1 v2 k2 hne

theorem lookupAttr_middle_self : ∀ (pre : List (String × String))
    (post : List (String × String)) (k v : String), k ∉ pre.map Prod.fst →
    lookupAttr (pre ++ (k, v) :: post) k = some v := by
  intro pre
  induction pre with
  | nil =>
    intro post k v _
    unfold lookupAttr
    rw [List.nil_append, List.find?_cons_of_pos _ (by simp)]
    rfl
  | cons p pre ih =>
    intro post k v hk
    simp only [List.map_cons, List.mem_cons] at hk
    push_neg at hk
    unfold lookupAttr
    rw [List.cons_append, List.find?_cons_of_neg _ (by
      simp only [beq_iff_eq]
      exact fun h => hk.1 h.symm)]
    exact ih post k v hk.2

/-- Changing the value of exactly one attribute (same keys, distinct as in any
dict) changes the attribute byte stream. -/
theorem attrStream_single_value_ne {pre post : List (String × String)} {k v1 v2 : String}
    (hv : v1 ≠ v2) (hnd : keysNodup (pre ++ (k, v1) :: post)) :
    attrStream (pre ++ (k, v1) :: post) ≠ attrStream (pre ++ (k, v2) :: post) := by
  intro heq
  apply hv
  set l1 := pre ++ (k, v1) :: post with hl1
  set l2 := pre ++ (k, v2) :: post with hl2
  have hkeys : l2.map Prod.fst = l1.map Prod.fst := by simp [hl1, hl2]
  have hkmem : k ∈ sortKeys (l1.map Prod.fst) := by
    have hm : k ∈ l1.map Prod.fst := by simp [hl1]
    exact ((sortKeys_perm _).mem_iff).mpr hm
  obtain ⟨K1, K2, hsplit⟩ := List.append_of_mem hkmem
  have hsnd : (sortKeys (l1.map Prod.fst)).Nodup := ((sortKeys_perm _).nodup_iff).mpr hnd
  rw [hsplit] at hsnd
  rcases List.nodup_append.mp hsnd with ⟨_, hck, hdisj⟩
  have hK1 : k ∉ K1 := fun hin => hdisj hin (by simp)
  have hK2 : k ∉ K2 := (List.nodup_cons.mp hck).1
  have hkpre : k ∉ pre.map Prod.fst := by
    have hnd2 := hnd
    unfold keysNodup at hnd2
    rw [hl1] at hnd2
    simp only [List.map_append, List.map_cons] at hnd2
    rcases List.nodup_append.mp hnd2 with ⟨_, _, hdisj2⟩
    exact fun hin => hdisj2 hin (by simp)
  have hv1 : lookupAttr l1 k = some v1 := lookupAttr_middle_self pre post k v1 hkpre
  have hv2 : lookupAttr l2 k = some v2 := lookupAttr_middle_self pre post k v2 hkpre
  have hothers : ∀ k2, k2 ≠ k → lookupAttr l1 k2 = lookupAttr l2 k2 := fun k2 hk2 =>
    lookupAttr_middle_ne pre post k v1 v2 k2
      (beq_eq_false_iff_ne.mpr (fun h => hk2 h.symm))
  set f1 := fun k2 => (lookupAttr l1 k2).getD "" with hf1
  set f2 := fun k2 => (lookupAttr l2 k2).getD "" with hf2
  have hXeq : attrFold f2 "" K1 = attrFold f1 "" K1 :=
    attrFold_congr K1 (fun k2 hk2 => by
      have hne : k2 ≠ k := fun h => hK1 (h ▸ hk2)
      simp [hf1, hf2, hothers k2 hne]) ""
  have hYeq : attrFold f2 "" K2 = attrFold f1 "" K2 :=
    attrFold_congr K2 (fun k2 hk2 => by
      have hne : k2 ≠ k := fun h => hK2 (h ▸ hk2)
      simp [hf1, hf2, hothers k2 hne]) ""
  have hd1 : attrStream l1 = (attrFold f1 "" K1 ++ k ++ v1) ++ attrFold f1 "" K2 := by
    rw [attrStream_eq_attrFold, hsplit, attrFold_append]
    show attrFold f1 (attrFold f1 "" K1 ++ k ++ f1 k) K2 = _
    rw [attrFold_shift]
    have hfk : f1 k = v1 := by simp [hf1, hv1]
    rw [hfk]
  have hd2 : attrStream l2 = (attrFold f1 "" K1 ++ k ++ v2) ++ attrFold f1 "" K2 := by
    rw [attrStream_eq_attrFold, hkeys, hsplit, attrFold_append]
    show attrFold f2 (attrFold f2 "" K1 ++ k ++ f2 k) K2 = _
    rw [attrFold_shift]
    have hfk : f2 k = v2 := by simp [hf2, hv2]
    rw [hfk, hXeq, hYeq]
  rw [hd1, hd2] at heq
  exact str_append_left_cancel (str_append_right_cancel heq)

theorem oneFieldDiff_streamNode {t1 t2 : Elem} (h : OneFieldDiff t1 t2) :
    streamNode t1 ≠ streamNode t2 := by
  induction h with
  | text tag attrib x1 x2 children tail hne =>
    intro heq
    simp only [streamNode] at heq
    exact hne (str_append_left_cancel
      (str_append_right_cancel (str_append_right_cancel heq)))
  | attr tag text tail children pre post k v1 v2 hv hnd =>
    intro heq
    simp only [streamNode] at heq
    have h1 := str_append_right_cancel (str_append_right_cancel
      (str_append_right_cancel heq))
    exact attrStream_single_value_ne hv hnd (str_append_left_cancel h1)
  | child tag attrib text tail l r c1 c2 hd ih =>
    intro heq
    simp only [streamNode] at heq
    have h1 := str_append_left_cancel (str_append_right_cancel heq)
    rw [streamChildren_append, streamChildren_append] at h1
    have h2 := str_append_left_cancel h1
    have h3 : streamNode c1 ++ streamChildren r = streamNode c2 ++ streamChildren r := h2
    exact ih (str_append_right_cancel h3)

/-- C5 (amended): a change of exactly one attribute value or exactly one
node's text, everything else identical, always changes the hashed byte
stream, hence the digest under the claim's injectivity reading. -/
theorem claim_C5_single_field_sensitivity {t1 t2 : Elem} (h : OneFieldDiff t1 t2) :
    streamScript t1 ≠ streamScript t2 :=
  oneFieldDiff_streamNode h

/-- Witness for the amended C5 at a concrete text change. -/
theorem claim_C5_single_field_sensitivity_witness :
    streamScript (.mk "t" [] "a" [] "") ≠ streamScript (.mk "t" [] "b" [] "") :=
  claim_C5_single_field_sensitivity
    (OneFieldDiff.text "t" [] "a" "b" [] "" (by decide))

/-- C5 counterexample: the serialization is not injective on the claim's
change classes.  Left conjunct: two pages with the same tags, the same
attribute keys per node, the same text — differing only in attribute values —
hash the identical byte stream in both variants.  Right conjunct: two pages
differing only in the order of the root's children also hash the identical
byte stream in both variants. -/
theorem claim_C5_counterexample :
    (streamScript (.mk "r" [] "" [.mk "t" [("a", ""), ("b", "bz")] "" [] ""] "") =
        streamScript (.mk "r" [] "" [.mk "t" [("a", "b"), ("b", "z")] "" [] ""] "") ∧
      streamTyper (.mk "r" [] "" [.mk "t" [("a", ""), ("b", "bz")] "" [] ""] "") =
        streamTyper (.mk "r" [] "" [.mk "t" [("a", "b"), ("b", "z")] "" [] ""] "") ∧
      Elem.mk "r" [] "" [.mk "t" [("a", ""), ("b", "bz")] "" [] ""] "" ≠
        Elem.mk "r" [] "" [.mk "t" [("a", "b"), ("b", "z")] "" [] ""] "") ∧
    (streamScript (.mk "p" [] "" [.mk "ab" [] "" [] "", .mk "abab" [] "" [] ""] "") =
        streamScript (.mk "p" [] "" [.mk "abab" [] "" [] "", .mk "ab" [] "" [] ""] "") ∧
      streamTyper (.mk "p" [] "" [.mk "ab" [] "" [] "", .mk "abab" [] "" [] ""] "") =
        streamTyper (.mk "p" [] "" [.mk "abab" [] "" [] "", .mk "ab" [] "" [] ""] "") ∧
      Elem.mk "p" [] "" [.mk "ab" [] "" [] "", .mk "abab" [] "" [] ""] "" ≠
        Elem.mk "p" [] "" [.mk "abab" [] "" [] "", .mk "ab" [] "" [] ""] "") :=
  ⟨⟨by decide, by decide,
      fun h => absurd (congrArg (fun e => e.children.map Elem.attrib) h) (by decide)⟩,
    ⟨by decide, by decide,
      fun h => absurd (congrArg (fun e => e.children.map Elem.tag) h) (by decide)⟩⟩

/-- C3 counterexample: on a page whose root element carries an attribute, the
typer variant's `page_hash` feeds the `"|"`-joined root attribute string
before the common walk, so the two variants hash different byte streams —
hence different digests under the claims' injectivity reading. -/
theorem claim_C3_counterexample :
    streamTyper (.mk "diagram" [("name", "X")] "" [] "") ≠
      streamScript (.mk "diagram" [("name", "X")] "" [] "") := by decide

theorem joinBar_cons_length (x : String) (xs : List String) :
    x.length ≤ (joinBar (x :: xs)).length := by
  cases xs with
  | nil => exact Nat.le_refl _
  | cons y ys =>
    show x.length ≤ (x ++ "|" ++ joinBar (y :: ys)).length
    rw [str_length_append, str_length_append]
    omega

/-- The typer variant's root attribute join is nonempty as soon as the root
carries any attribute: every joined piece contains at least the `"="`. -/
theorem attrsJoin_length_pos {attrib : List (String × String)} (h : attrib ≠ []) :
    1 ≤ (attrsJoin attrib).length := by
  unfold attrsJoin
  have hlen : (sortKeys (attrib.map Prod.fst)).length = attrib.length := by
    rw [(sortKeys_perm _).length_eq, List.length_map]
  cases hk : sortKeys (attrib.map Prod.fst) with
  | nil =>
    exfalso
    rw [hk] at hlen
    cases attrib with
    | nil => exact h rfl
    | cons a l => simp at hlen
  | cons k ks =>
    simp only [List.map_cons]
    have h1 := joinBar_cons_length (k ++ "=" ++ ((lookupAttr attrib k).getD ""))
      (ks.map (fun k2 => k2 ++ "=" ++ ((lookupAttr attrib k2).getD "")))
    have h2 : (k ++ "=" ++ ((lookupAttr attrib k).getD "")).length =
        k.length + ("=" : String).length + ((lookupAttr attrib k).getD "").length := by
      rw [str_length_append, str_length_append]
    have h3 : ("=" : String).length = 1 := rfl
    omega

/-- C3 (amended): the two `page_hash` functions hash the same byte stream —
hence produce the same hex digest — exactly for pages whose root element has
no attributes.  The typer variant prefixes the `"|"`-joined `k=v` string of
the root's sorted attributes before the common walk; that prefix is empty iff
the root has no attributes, so with root attributes the streams differ. -/
theorem claim_C3_agreement_iff (e : Elem) :
    streamTyper e = streamScript e ↔ e.attrib = [] := by
  constructor
  · intro h
    by_contra hne
    have hpos := attrsJoin_length_pos hne
    have hlen := congrArg String.length h
    unfold streamTyper streamScript at hlen
    rw [str_length_append] at hlen
    omega
  · intro h
    cases e with
    | mk tag a x cs y =>
      simp only [Elem.attrib] at h
      subst h
      unfold streamTyper streamScript
      simp [Elem.attrib, attrsJoin, sortKeys, joinBar]

/-! ## Stale-file reporting (C7) -/

theorem joined_mem_iff (outdir fname : String) (specs : List (Nat × String)) :
    (outdir ++ "/" ++ fname) ∈ specs.map (fun q => outdir ++ "/" ++ q.2) ↔
      fname ∈ specs.map Prod.snd := by
  simp only [List.mem_map]
  constructor
  · rintro ⟨q, hq, heq⟩
    exact ⟨q, hq, str_append_left_cancel heq⟩
  · rintro ⟨q, hq, heq⟩
    exact ⟨q, hq, by rw [heq]⟩

/-- C7 counterexample: with cleanup on, a recorded pair whose index has
vanished from the current page set is nevertheless NOT reported stale when no
file exists at its old path — the code additionally requires
`os.path.isfile(old_path)`, which the claim's "exactly when" omits. -/
theorem claim_C7_counterexample :
    ¬ (((5, PrevEntry.mk (some "Gone.svg") (some "h")) ∈
          staleEntries true (fun _ => false) "o"
            [(5, PrevEntry.mk (some "Gone.svg") (some "h"))] []) ↔
        (5 ∉ ([] : List (Nat × String)).map Prod.fst ∨
          "Gone.svg" ∉ ([] : List (Nat × String)).map Prod.snd)) := by
  intro hiff
  have h1 := hiff.mpr (Or.inl (by simp))
  simp [staleEntries] at h1

/-- C7 (amended): with cleanup requested, a recorded `(idx, e)` with filename
`fname` is reported stale iff (`idx` is not among the current page indices, or
`fname` is not among the currently assigned filenames) AND a file currently
exists at `outdir/fname`; every reported entry's old path appears in
`stale_files`.  In particular — last two conjuncts — in the spec's scenario of
deleting the "Results" page with all other pages unchanged and all previous
output files on disk, the second run's `to_export` is empty while
`Results.svg` is reported stale. -/
theorem claim_C7_stale_reporting (isfile : String → Bool) (outdir : String)
    (prevPages : List (Nat × PrevEntry)) (specs : List (Nat × String))
    (idx : Nat) (e : PrevEntry) (fname : String)
    (he : e.filename = some fname) (hmem : (idx, e) ∈ prevPages) :
    (((idx, e) ∈ staleEntries true isfile outdir prevPages specs) ↔
      ((idx ∉ specs.map Prod.fst ∨ fname ∉ specs.map Prod.snd) ∧
        isfile (outdir ++ "/" ++ fname) = true)) ∧
    ((idx, e) ∈ staleEntries true isfile outdir prevPages specs →
      (outdir ++ "/" ++ fname) ∈ stale_files true isfile outdir prevPages specs) ∧
    select_pages false (fun _ => true) "o" (fun i => toString i)
      (prevLookup (new_pages (fun i => toString i)
        (plan_file_specs ["Intro", "Intro", "Results"])))
      (plan_file_specs ["Intro", "Intro"]) = [] ∧
    ("o" ++ "/" ++ "Results.svg") ∈ stale_files true (fun _ => true) "o"
      (new_pages (fun i => toString i) (plan_file_specs ["Intro", "Intro", "Results"]))
      (plan_file_specs ["Intro", "Intro"]) := by
  have hne : prevPages.isEmpty = false := by
    cases prevPages
    · simp at hmem
    · rfl
  refine ⟨?_, ?_, by decide, by decide⟩
  · unfold staleEntries
    rw [if_pos (by simp [hne]), List.mem_filter]
    simp only [hmem, true_and, he, Option.getD_some, Bool.and_eq_true, Bool.or_eq_true,
      decide_eq_true_eq]
    rw [joined_mem_iff]
  · intro hmem2
    exact List.mem_map.mpr ⟨(idx, e), hmem2, by simp [he]⟩

/-- Witness for the amended C7: a page deleted from the document, its old
output file still on disk, is reported stale. -/
theorem claim_C7_stale_reporting_witness :
    (((5, PrevEntry.mk (some "Results.svg") (some "h")) ∈
        staleEntries true (fun _ => true) "o"
          [(5, PrevEntry.mk (some "Results.svg") (some "h"))] [(0, "Intro.svg")]) ↔
      ((5 ∉ ([(0, "Intro.svg")] : List (Nat × String)).map Prod.fst ∨
          "Results.svg" ∉ ([(0, "Intro.svg")] : List (Nat × String)).map Prod.snd) ∧
        (fun _ => true : String → Bool) ("o" ++ "/" ++ "Results.svg") = true)) ∧
    (((5, PrevEntry.mk (some "Results.svg") (some "h")) ∈
        staleEntries true (fun _ => true) "o"
          [(5, PrevEntry.mk (some "Results.svg") (some "h"))] [(0, "Intro.svg")]) →
      ("o" ++ "/" ++ "Results.svg") ∈ stale_files true (fun _ => true) "o"
        [(5, PrevEntry.mk (some "Results.svg") (some "h"))] [(0, "Intro.svg")]) ∧
    select_pages false (fun _ => true) "o" (fun i => toString i)
      (prevLookup (new_pages (fun i => toString i)
        (plan_file_specs ["Intro", "Intro", "Results"])))
      (plan_file_specs ["Intro", "Intro"]) = [] ∧
    ("o" ++ "/" ++ "Results.svg") ∈ stale_files true (fun _ => true) "o"
      (new_pages (fun i => toString i) (plan_file_specs ["Intro", "Intro", "Results"]))
      (plan_file_specs ["Intro", "Intro"]) :=
  claim_C7_stale_reporting (fun _ => true) "o"
    [(5, PrevEntry.mk (some "Results.svg") (some "h"))] [(0, "Intro.svg")]
    5 (PrevEntry.mk (some "Results.svg") (some "h")) "Results.svg"
    rfl (List.mem_singleton.mpr rfl)

/-! ## Manifest loading (C8) -/

/-- C8 counterexample: content that parses as valid JSON of the wrong shape
(a JSON array — not parseable as the expected manifest structure) is returned
as-is by `load_manifest`, not replaced by the empty manifest. -/
theorem claim_C8_counterexample :
    load_manifest (.present (some (.arr []))) = Json.arr [] ∧
    isJsonObj (Json.arr []) = false ∧ Json.arr [] ≠ emptyManifest :=
  ⟨rfl, rfl, fun h => Json.noConfusion h⟩

/-- C8 (amended): `load_manifest` is total — never an error — and a missing
file, or content on which `json.load` raises, yields the empty manifest
(first-run semantics). -/
theorem claim_C8_load_total (f : FileRead)
    (h : f = .missing ∨ f = .present none) : load_manifest f = emptyManifest := by
  rcases h with rfl | rfl <;> rfl

theorem claim_C8_load_total_witness : load_manifest .missing = emptyManifest :=
  claim_C8_load_total .missing (Or.inl rfl)

/-- C9: a document with no extractable pages — in particular an unparseable
one — plans exactly one synthetic entry, titled "Page 1" with filename
"Page 1.svg", whose fingerprint is the fixed constant fallback hash input,
independent of the document's bytes. -/
theorem claim_C9_zero_page_fallback (ph : Elem → String) (d : Doc)
    (h : get_page_elements d = []) :
    planTitles (get_page_elements d) = ["Page 1"] ∧
    plan_pages ph (get_page_elements d) =
      ([(0, "Page 1.svg")], [(0, fallbackHashInput)]) := by
  rw [h]
  exact ⟨rfl, rfl⟩

theorem claim_C9_zero_page_fallback_witness :
    planTitles (get_page_elements .unparseable) = ["Page 1"] ∧
    plan_pages (fun _ => "") (get_page_elements .unparseable) =
      ([(0, "Page 1.svg")], [(0, fallbackHashInput)]) :=
  claim_C9_zero_page_fallback (fun _ => "") .unparseable rfl

/-! ## Render failure keeps the manifest (C10) -/

theorem render_loop_error (render : Nat → RenderOutcome) :
    ∀ (l : List (Nat × String)), (∃ p ∈ l, render p.1 ≠ RenderOutcome.ok) →
      ∃ c, render_loop render l = .error c := by
  intro l
  induction l with
  | nil =>
    rintro ⟨p, hp, _⟩
    simp at hp
  | cons q l ih =>
    rintro ⟨p, hp, hr⟩
    cases hq : render q.1 with
    | ok =>
      rcases List.mem_cons.mp hp with rfl | hp2
      · exact absurd hq hr
      · obtain ⟨c, hc⟩ := ih ⟨p, hp2, hr⟩
        exact ⟨c, by simp [render_loop, hq, hc]⟩
    | cliMissing => exact ⟨2, by simp [render_loop, hq]⟩
    | exitNonzero => exact ⟨3, by simp [render_loop, hq]⟩

/-- C10: if rendering any selected page fails (renderer missing or nonzero
exit), the run exits before `save_manifest`, so the on-disk manifest is the
old one; consequently the next run selects every current page with no entry
in that old manifest — including pages already rendered in the failed run. -/
theorem claim_C10_failure_keeps_manifest (render : Nat → RenderOutcome)
    (to_export : List (Nat × String)) (diskPages newPages : List (Nat × PrevEntry))
    (hfail : ∃ p ∈ to_export, render p.1 ≠ RenderOutcome.ok) :
    manifest_after_export render to_export diskPages newPages = diskPages ∧
    ∀ (full : Bool) (isfile : String → Bool) (outdir : String) (hashes : Nat → String)
      (specs2 : List (Nat × String)) (idx : Nat) (fname : String),
      (idx, fname) ∈ specs2 →
      prevLookup (manifest_after_export render to_export diskPages newPages) idx = none →
      (idx, fname) ∈ select_pages full isfile outdir hashes
        (prevLookup (manifest_after_export render to_export diskPages newPages)) specs2 := by
  obtain ⟨c, hc⟩ := render_loop_error render to_export hfail
  have hm : manifest_after_export render to_export diskPages newPages = diskPages := by
    unfold manifest_after_export
    rw [hc]
  refine ⟨hm, ?_⟩
  intro full isfile outdir hashes specs2 idx fname hmem hnone
  rw [select_pages, List.mem_filter]
  refine ⟨hmem, ?_⟩
  simp [wantsExport, hnone]

/-- Witness for C10: renderer missing on the single selected page. -/
theorem claim_C10_failure_keeps_manifest_witness :
    manifest_after_export (fun _ => RenderOutcome.cliMissing) [(0, "A.svg")] []
        [(0, PrevEntry.mk (some "A.svg") (some "h"))] = [] ∧
    ∀ (full : Bool) (isfile : String → Bool) (outdir : String) (hashes : Nat → String)
      (specs2 : List (Nat × String)) (idx : Nat) (fname : String),
      (idx, fname) ∈ specs2 →
      prevLookup (manifest_after_export (fun _ => RenderOutcome.cliMissing) [(0, "A.svg")] []
        [(0, PrevEntry.mk (some "A.svg") (some "h"))]) idx = none →
      (idx, fname) ∈ select_pages full isfile outdir hashes
        (prevLookup (manifest_after_export (fun _ => RenderOutcome.cliMissing) [(0, "A.svg")] []
          [(0, PrevEntry.mk (some "A.svg") (some "h"))])) specs2 :=
  claim_C10_failure_keeps_manifest (fun _ => RenderOutcome.cliMissing) [(0, "A.svg")] []
    [(0, PrevEntry.mk (some "A.svg") (some "h"))]
    ⟨(0, "A.svg"), List.mem_singleton.mpr rfl, by decide⟩
